import Mathlib

/-!
Verification of the mac-mips assembly formatter (src/src/formatter.rs).

Strings are modelled as `List Char`. Each definition mirrors the function of
the same name in the source; line numbers in the doc comments refer to
src/src/formatter.rs. The pipeline used by `format` is the line-block
pipeline (`split_into_line_blocks` / `format_line_block` / `indent_blocks` /
`consume_line_blocks`): `format` (lines 560-578) consumes a value named
`blocks` produced by `split_into_line_blocks` (lines 310-330), and the
`Section`/`Chunk` values built by `parse_sections`/`parse_chunks` are
discarded.
-/

namespace MacMips

abbrev Str := List Char

/-- Rust `str::trim` (leading and trailing whitespace removed). -/
def rustTrim (s : Str) : Str :=
  ((s.dropWhile Char.isWhitespace).reverse.dropWhile Char.isWhitespace).reverse

/-- Split on newline characters; an empty string gives one empty piece. -/
def splitNl : Str → List Str
  | [] => [[]]
  | c :: rest =>
    match splitNl rest with
    | [] => [[]]
    | l :: ls => if c = '\n' then [] :: l :: ls else (c :: l) :: ls

/-- Rust `str::lines` as used at line 561: pieces between newlines, with the
piece after a final trailing newline omitted, and no lines at all for the
empty string. (Any carriage returns survive here and are removed by the
`trim` applied to every line at line 561.) -/
def rustLines (s : Str) : List Str :=
  if s = [] then []
  else
    let parts := splitNl s
    if parts.getLast? = some [] then parts.dropLast else parts

/-- Rust `str::starts_with` on a string pattern. -/
def startsWith (p s : Str) : Bool := List.isPrefixOf p s

/-- Rust `str::ends_with` on a char pattern. -/
def endsWith (c : Char) (s : Str) : Bool := s.getLast? == some c

/-- First index of a character satisfying `p` (Rust `str::find`). -/
def find_index {α : Type} (p : α → Bool) : List α → Option Nat
  | [] => none
  | c :: rest => if p c then some 0 else (find_index p rest).map (· + 1)

namespace Line

/-- `line::TokenisationState` (lines 7-11). -/
inductive TokenisationState : Type
  | Token : Str → TokenisationState
  | StringLiteral : Str → TokenisationState
  | Waiting : TokenisationState
deriving DecidableEq

/-- `line::CodeToken` (lines 14-21). -/
inductive CodeToken : Type
  | Item : Str → CodeToken
  | Comma : CodeToken
  | Colon : CodeToken
  | ParenOpen : CodeToken
  | ParenClose : CodeToken
  | Literal : Str → CodeToken
deriving DecidableEq

/-- The four single-character tokens. -/
def is_delim (c : Char) : Bool := c = ',' || c = ':' || c = '(' || c = ')'

/-- `code_token_from_char` (lines 36-44). The source panics on any other
character; every call site guards with the same four characters, so the
default branch is unreachable. -/
def code_token_from_char (c : Char) : CodeToken :=
  if c = ',' then .Comma
  else if c = ':' then .Colon
  else if c = '(' then .ParenOpen
  else if c = ')' then .ParenClose
  else .Item [c]

/-- Rust `cur.ends_with(backslash)` at line 77. -/
def ends_with_backslash (s : Str) : Bool := s.getLast? == some '\\'

/-- `receive_next_char` (lines 63-100); the emitted tokens are returned
instead of pushed onto a mutable vector. -/
def receive_next_char : TokenisationState → Char → List CodeToken × TokenisationState
  | .Waiting, c =>
    if is_delim c then ([code_token_from_char c], .Waiting)
    else if c.isWhitespace then ([], .Waiting)
    else if c = '"' then ([], .StringLiteral [])
    else ([], .Token [c])
  | .StringLiteral cur, c =>
    if c = '"' && !ends_with_backslash cur then ([.Literal cur], .Waiting)
    else ([], .StringLiteral (cur ++ [c]))
  | .Token cur, c =>
    if c.isWhitespace then ([.Item cur], .Waiting)
    else if is_delim c then ([.Item cur, code_token_from_char c], .Waiting)
    else if c = '"' then ([.Item cur], .StringLiteral [])
    else ([], .Token (cur ++ [c]))

/-- The loop of `tokenise_line` (lines 50-52). -/
def tokenise_chars (st : TokenisationState) (code : Str) : List CodeToken × TokenisationState :=
  code.foldl (fun acc c =>
    let r := receive_next_char acc.2 c
    (acc.1 ++ r.1, r.2)) ([], st)

/-- The final flush of `tokenise_line` (lines 54-58). -/
def flush_pending : TokenisationState → List CodeToken
  | .Waiting => []
  | .Token cur => [.Item cur]
  | .StringLiteral cur => [.Literal cur]

/-- `tokenise_line` (lines 46-61). -/
def tokenise_line (code : Str) : List CodeToken :=
  let r := tokenise_chars .Waiting code
  r.1 ++ flush_pending r.2

/-- `CodeToken::to_string` (lines 24-33). -/
def CodeToken.to_string : CodeToken → Str
  | .Comma => [',']
  | .Colon => [':']
  | .ParenOpen => ['(']
  | .ParenClose => [')']
  | .Item item => item
  | .Literal string => '"' :: string ++ ['"']

/-- `should_be_spaced` (lines 132-141). -/
def should_be_spaced : CodeToken → CodeToken → Bool
  | .Item _, .Item _ => true
  | .Item _, .Literal _ => true
  | .Literal _, .Item _ => true
  | .Literal _, .Literal _ => true
  | .Comma, .Item _ => true
  | .Comma, .Literal _ => true
  | .Colon, .Item _ => true
  | .Colon, .Literal _ => true
  | .Comma, .ParenOpen => true
  | _, _ => false

/-- The window loop of `format_code` (lines 152-157): render the remaining
tokens given the previous one. -/
def render_rest : CodeToken → List CodeToken → Str
  | _, [] => []
  | prev, t :: ts =>
    (if should_be_spaced prev t then [' '] else []) ++ t.to_string ++ render_rest t ts

/-- Rendering a token list, as `format_code` does after tokenising
(lines 146-159). -/
def render : List CodeToken → Str
  | [] => []
  | t :: ts => t.to_string ++ render_rest t ts

/-- `format_code` (lines 143-160). -/
def format_code (code : Str) : Str := render (tokenise_line code)

/-- `line::CodeLine` (lines 102-106). -/
structure CodeLine : Type where
  code : Option Str
  comment : Option Str
deriving DecidableEq

/-- `CodeLine::parse` (lines 113-129). -/
def CodeLine.parse (line : Str) : CodeLine :=
  if line = [] then ⟨none, none⟩
  else
    match find_index (· = '#') line with
    | some comment_index =>
      let code := rustTrim (line.take comment_index)
      if code = [] then ⟨none, some (rustTrim (line.drop (comment_index + 1)))⟩
      else ⟨some code, some (rustTrim (line.drop (comment_index + 1)))⟩
    | none => ⟨some (rustTrim line), none⟩

/-- `format_comment` (lines 162-164). The source slices `line[1..]`, which
requires a non-empty line; every call site passes one. -/
def format_comment (line : Str) : Str :=
  '#' :: ' ' :: rustTrim (line.drop 1)

/-- `line::format` (lines 166-177). -/
def format (line : Str) : Str :=
  let code_line := CodeLine.parse line
  match code_line.code, code_line.comment with
  | some code, some comment => format_code code ++ (' ' :: ' ' :: '#' :: ' ' :: comment)
  | some code, none => format_code code
  | none, some comment => format_comment comment
  | none, none => []

/-- `line::SplitLine` (lines 179-183). -/
inductive SplitLine : Type
  | One : Str → SplitLine
  | Two : Str → Str → SplitLine
deriving DecidableEq

/-- `possibly_split_line` (lines 185-196). -/
def possibly_split_line (line : Str) : SplitLine :=
  match find_index (· = ':') line with
  | some colon_i =>
    match find_index (· = '#') line with
    | some comment_i =>
      if colon_i < comment_i then
        .Two (line.take (colon_i + 1)) (line.drop (colon_i + 1))
      else .One line
    | none => .Two (line.take (colon_i + 1)) (line.drop (colon_i + 1))
  | none => .One line

/-- Modelled from the spec: `line::split_code_from_comment`, called by
`format_code_block` (line 397) but absent from the `line` module in the
source. Per spec section 4.1 the classifier splits at the first hash
character: the left part (trimmed) is the code, the right part (trimmed)
is the comment, with an empty comment when no hash occurs. This agrees
with `CodeLine::parse` except that absent parts are empty strings, as
required by the `is_empty` tests at the call site. -/
def split_code_from_comment (l : Str) : Str × Str :=
  match find_index (· = '#') l with
  | some i => (rustTrim (l.take i), rustTrim (l.drop (i + 1)))
  | none => (rustTrim l, [])

end Line

/-- `Directive` (lines 199-203). -/
inductive Directive : Type
  | Text : Directive
  | Data : Directive
deriving DecidableEq

/-- `LineBlock` (lines 299-308), the block type consumed by
`format_line_block`, `indent_blocks` and `consume_line_blocks`. Both the
borrowed and the owned instantiation are modelled with `Str`. -/
inductive LineBlock : Type
  | Space : LineBlock
  | Code : List Str → LineBlock
  | Data : List Str → LineBlock
  | DataModifier : Str → LineBlock
  | Comment : List Str → LineBlock
  | SectionDenoter : Str → LineBlock
  | ProcedureDenoter : Str → LineBlock
deriving DecidableEq

/-- `consume_line` (lines 332-370). The mutable block vector is kept in
reverse order (most recent block first) so that the current block is the
head; the match arms appear in source order. The source unwraps the last
block, which exists because the vector starts as `vec![Space]`; the
impossible empty case returns the input unchanged. -/
def consume_line (line_blocks : List LineBlock) (current_dir : Directive) (line : Str) :
    List LineBlock × Directive :=
  if line = [] then
    match line_blocks with
    | .Space :: _ => (line_blocks, current_dir)
    | _ => (.Space :: line_blocks, current_dir)
  else if current_dir = .Data && startsWith ".align".toList line then
    (.DataModifier line :: line_blocks, current_dir)
  else if startsWith ".".toList line then
    let new_dir :=
      if startsWith ".text".toList line then Directive.Text
      else if startsWith ".data".toList line then Directive.Data
      else current_dir
    (.SectionDenoter line :: line_blocks, new_dir)
  else if current_dir = .Text && endsWith ':' line then
    (.ProcedureDenoter line :: line_blocks, current_dir)
  else if startsWith "#".toList line then
    match line_blocks with
    | .Comment cur :: rest => (.Comment (cur ++ [line]) :: rest, current_dir)
    | _ => (.Comment [line] :: line_blocks, current_dir)
  else
    match line_blocks, current_dir with
    | .Code cur :: rest, _ => (.Code (cur ++ [line]) :: rest, current_dir)
    | .Data cur :: rest, _ => (.Data (cur ++ [line]) :: rest, current_dir)
    | _, .Text => (.Code [line] :: line_blocks, current_dir)
    | _, .Data => (.Data [line] :: line_blocks, current_dir)

/-- One iteration of the loop in `split_into_line_blocks` (lines 314-327):
in a `Text` section each line is first run through `possibly_split_line`. -/
def split_step (acc : List LineBlock × Directive) (line : Str) : List LineBlock × Directive :=
  match acc.2 with
  | Directive.Data => consume_line acc.1 acc.2 line
  | Directive.Text =>
    match Line.possibly_split_line line with
    | .One l => consume_line acc.1 acc.2 l
    | .Two part1 part2 =>
      let r1 := consume_line acc.1 acc.2 part1
      consume_line r1.1 r1.2 part2

/-- `split_into_line_blocks` (lines 310-330). -/
def split_into_line_blocks (lines : List Str) : List LineBlock :=
  (lines.foldl split_step ([LineBlock.Space], Directive.Text)).1.reverse

/-- `MAX_COMMENT_DISPARITY` (line 3). -/
def MAX_COMMENT_DISPARITY : Nat := 10

/-- `comment_start_index` (lines 372-391). The source subtracts with `usize`
arithmetic; `Nat` subtraction is used here, which agrees because the
maximum over the commented lines never exceeds the maximum over all lines
(proved below). -/
def comment_start_index (line_pairs : List (Str × Str)) : Nat :=
  let max_length_all := (line_pairs.map (fun l => l.1.length)).foldr max 0
  let max_length_comments :=
    (line_pairs.filterMap (fun l => if l.2 = [] then none else some l.1.length)).foldr max 0
  if MAX_COMMENT_DISPARITY ≤ max_length_all - max_length_comments then
    max_length_comments + 2
  else max_length_all + 2

/-- The `block` vector built at lines 394-400 of `format_code_block`:
each line split into its formatted code part and its comment part. -/
def code_comment_pairs (lines : List Str) : List (Str × Str) :=
  lines.map (fun l =>
    let p := Line.split_code_from_comment l
    (Line.format_code p.1, p.2))

/-- `format_code_block` (lines 393-416). The gap subtraction
`comment_index - code.len()` is `Nat` subtraction here; the source panics
on underflow, which never happens (proved below). -/
def format_code_block (lines : List Str) : List Str :=
  let block := code_comment_pairs lines
  let comment_index := comment_start_index block
  block.map (fun p =>
    if p.2 = [] then p.1
    else p.1 ++ List.replicate (comment_index - p.1.length) ' ' ++ ('#' :: ' ' :: p.2))

/-- `format_line_block` (lines 418-430). -/
def format_line_block : LineBlock → LineBlock
  | .Space => .Space
  | .ProcedureDenoter line => .ProcedureDenoter (Line.format line)
  | .SectionDenoter line => .SectionDenoter (Line.format line)
  | .Code lines => .Code (format_code_block lines)
  | .Data lines => .Data (format_code_block lines)
  | .DataModifier line => .DataModifier (Line.format line)
  | .Comment lines => .Comment (lines.map Line.format_comment)

/-- `indent_block` (lines 492-507): one tab is prepended to every line of a
`Code` or `Comment` block; all other blocks are untouched. -/
def indent_block : LineBlock → LineBlock
  | .Code lines => .Code (lines.map (fun l => '\t' :: l))
  | .Comment lines => .Comment (lines.map (fun l => '\t' :: l))
  | b => b

/-- The first match arm of the loop at lines 514-524. -/
def is_data_denoter : LineBlock → Bool
  | .SectionDenoter line => startsWith ".data".toList line
  | _ => false

/-- The second match arm of the loop at lines 514-524. -/
def is_text_denoter : LineBlock → Bool
  | .SectionDenoter line => startsWith ".text".toList line
  | _ => false

/-- The pattern of the `find_map` at lines 528-531. -/
def is_procedure : LineBlock → Bool
  | .ProcedureDenoter _ => true
  | _ => false

/-- The reverse walk at lines 534-555 of `indent_blocks`: the blocks after
the first procedure are visited from last to first carrying the
`should_indent` flag (returned alongside the rewritten list, so the flag
for an earlier block is computed from the walk over the later ones). -/
def indent_walk : List LineBlock → List LineBlock × Bool
  | [] => ([], false)
  | b :: rest =>
    let r := indent_walk rest
    match b with
    | .ProcedureDenoter line => (.ProcedureDenoter line :: r.1, false)
    | .Code lines => (indent_block (.Code lines) :: r.1, true)
    | .Comment lines =>
      if r.2 then (indent_block (.Comment lines) :: r.1, r.2)
      else (.Comment lines :: r.1, r.2)
    | b => (b :: r.1, r.2)

/-- The `find_map` at lines 528-531. -/
def first_proc_index (chunk : List LineBlock) : Option Nat :=
  find_index is_procedure chunk

/-- The body of the `for chunk in text_chunks` loop (lines 527-557): blocks
up to and including the first procedure denoter are untouched, the rest are
rewritten by the reverse walk; a chunk with no procedure is untouched. -/
def process_chunk (chunk : List LineBlock) : List LineBlock :=
  match first_proc_index chunk with
  | none => chunk
  | some index => chunk.take (index + 1) ++ (indent_walk (chunk.drop (index + 1))).1

/-- `indent_blocks` (lines 509-558). The source collects mutable references
into per-text-chunk vectors and then mutates them in place; here each
contiguous text chunk (delimited by `.data`/`.text` section denoters, with
blocks inside a data chunk left untouched) is flushed through
`process_chunk` in place. -/
def indent_step (acc : List LineBlock × Bool × List LineBlock) (b : LineBlock) :
    List LineBlock × Bool × List LineBlock :=
  if is_data_denoter b then (acc.1 ++ process_chunk acc.2.2 ++ [b], true, [])
  else if is_text_denoter b then (acc.1 ++ process_chunk acc.2.2 ++ [b], false, [])
  else if acc.2.1 then (acc.1 ++ process_chunk acc.2.2 ++ [b], true, [])
  else (acc.1, false, acc.2.2 ++ [b])

def indent_blocks (blocks : List LineBlock) : List LineBlock :=
  let r := blocks.foldl indent_step (([] : List LineBlock), false, ([] : List LineBlock))
  r.1 ++ process_chunk r.2.2

/-- `BlockCollapseState` (lines 432-438); the source spelling of the last
constructor is kept. -/
inductive BlockCollapseState : Type
  | Preparing : BlockCollapseState
  | AfterComment : BlockCollapseState
  | AfterProcedure : BlockCollapseState
  | AfterDataModifer : BlockCollapseState
deriving DecidableEq

/-- One iteration of the loop in `consume_line_blocks` (lines 444-482);
the match arms appear in source order. -/
def consume_block_step (acc : List Str × BlockCollapseState) (block : LineBlock) :
    List Str × BlockCollapseState :=
  match acc.2, block with
  | .AfterProcedure, .SectionDenoter line => (acc.1 ++ [[], line, []], .Preparing)
  | .AfterDataModifer, .SectionDenoter line => (acc.1 ++ [[], line, []], .Preparing)
  | _, .SectionDenoter line => (acc.1 ++ [line, []], .Preparing)
  | _, .ProcedureDenoter line => (acc.1 ++ [line], .AfterProcedure)
  | _, .Code lines => (acc.1 ++ lines ++ [[]], .Preparing)
  | _, .Data lines => (acc.1 ++ lines ++ [[]], .Preparing)
  | _, .Comment lines => (acc.1 ++ lines, .AfterComment)
  | _, .DataModifier line => (acc.1 ++ [line], .AfterDataModifer)
  | .AfterComment, .Space => (acc.1 ++ [[]], .Preparing)
  | st, .Space => (acc.1, st)

/-- `consume_line_blocks` (lines 440-490). -/
def consume_line_blocks (line_blocks : List LineBlock) : List Str :=
  let r := line_blocks.foldl consume_block_step ([], .Preparing)
  match r.2 with
  | .Preparing => r.1
  | _ => r.1 ++ [[]]

/-- Rust `Vec::join` with a newline separator (line 577). -/
def join_lines : List Str → Str
  | [] => []
  | [l] => l
  | l :: rest => l ++ '\n' :: join_lines rest

/-- The line list produced by `format` (lines 560-576) before the final
`join`: trim every input line, split into line blocks, format each block,
run the indentation pass, and flatten. -/
def format_lines (contents : Str) : List Str :=
  let raw_lines := (rustLines contents).map rustTrim
  let blocks := split_into_line_blocks raw_lines
  let formatted_blocks := blocks.map format_line_block
  let indented := indent_blocks formatted_blocks
  consume_line_blocks indented

/-- `format` (lines 560-578): the flattened lines joined with newlines. -/
def format (contents : Str) : Str :=
  join_lines (format_lines contents)

/-- `std::fmt::Error`, the error type of `format` (line 560); the source
calls it a generic format error and never constructs it. -/
inductive FormatError : Type
  | fmtError : FormatError
deriving DecidableEq

/-- Rust `usize` subtraction: `none` models the arithmetic panic. -/
def checked_sub (a b : Nat) : Option Nat :=
  if b ≤ a then some (a - b) else none

/-- Collecting a list of fallible results (Rust `collect` over `Option`). -/
def map_option {α β : Type} (f : α → Option β) : List α → Option (List β)
  | [] => some []
  | x :: xs =>
    match f x, map_option f xs with
    | some y, some ys => some (y :: ys)
    | _, _ => none

/-- `comment_start_index` with the `usize` subtraction at line 386 modelled
as fallible. -/
def comment_start_index_checked (line_pairs : List (Str × Str)) : Option Nat :=
  let max_length_all := (line_pairs.map (fun l => l.1.length)).foldr max 0
  let max_length_comments :=
    (line_pairs.filterMap (fun l => if l.2 = [] then none else some l.1.length)).foldr max 0
  match checked_sub max_length_all max_length_comments with
  | none => none
  | some d =>
    if MAX_COMMENT_DISPARITY ≤ d then some (max_length_comments + 2)
    else some (max_length_all + 2)

/-- `format_code_block` with the `usize` subtractions (lines 386 and 411)
modelled as fallible. -/
def format_code_block_checked (lines : List Str) : Option (List Str) :=
  let block := code_comment_pairs lines
  match comment_start_index_checked block with
  | none => none
  | some comment_index =>
    map_option (fun p =>
      if p.2 = [] then some p.1
      else
        match checked_sub comment_index p.1.length with
        | none => none
        | some gap => some (p.1 ++ List.replicate gap ' ' ++ ('#' :: ' ' :: p.2))) block

/-- `format_line_block` with the fallible `format_code_block`; the other
branches contain no partial operation. -/
def format_line_block_checked : LineBlock → Option LineBlock
  | .Code lines => (format_code_block_checked lines).map .Code
  | .Data lines => (format_code_block_checked lines).map .Data
  | b => some (format_line_block b)

/-- `format` (lines 560-578) with every panicking operation modelled as
`none`. -/
def format_checked (contents : Str) : Option Str :=
  let raw_lines := (rustLines contents).map rustTrim
  let blocks := split_into_line_blocks raw_lines
  match map_option format_line_block_checked blocks with
  | none => none
  | some formatted_blocks =>
    some (join_lines (consume_line_blocks (indent_blocks formatted_blocks)))

/-- The `Result` returned by `format`: the source wraps the joined lines in
`Ok` unconditionally (line 577) and never constructs its error value, so
the `Except.error` branch could only arise from a modelled panic, which
`format_checked` reports as `none`. -/
def format_result (contents : Str) : Option (Except FormatError Str) :=
  (format_checked contents).map Except.ok

/-! Specification-side definitions, written from the words of the claims
under check; each is compared with the corresponding source definition in
the theorems below. -/

namespace Line

/-- The right-hand side of the claimed spacing table: an item or a literal. -/
def operand_token : CodeToken → Bool
  | .Item _ => true
  | .Literal _ => true
  | _ => false

/-- The left-hand side of the claimed spacing table: an item, a literal, a
comma or a colon. -/
def left_spacing_token : CodeToken → Bool
  | .Item _ => true
  | .Literal _ => true
  | .Comma => true
  | .Colon => true
  | _ => false

/-- The claimed spacing rule: a space exactly for a pair from
left-spacing-tokens followed by an operand token, or for a comma followed
by an opening parenthesis. -/
def space_rule_spec (left right : CodeToken) : Bool :=
  (left_spacing_token left && operand_token right) ||
  (match left, right with
   | .Comma, .ParenOpen => true
   | _, _ => false)

/-- A token whose rendering retokenises to itself at its closing quote: a
literal whose content does not end in a backslash (any other token
qualifies). The only violators are literals left unterminated at end of
input with a trailing backslash. -/
def literal_tail_ok : CodeToken → Bool
  | .Literal s => !(s.getLast? == some '\\')
  | _ => true

/-- A character that extends an item token: not whitespace, not one of the
four delimiters, not a quote. -/
def ordinary_char (c : Char) : Bool :=
  !c.isWhitespace && !is_delim c && !(c == '"')

/-- The last character of `cur`, or the fallback `p` when `cur` is empty:
the character the literal scanner inspects for escaping. -/
def last_or (p : Option Char) (cur : Str) : Option Char :=
  match cur.getLast? with
  | some x => some x
  | none => p

/-- Literal content as accumulated by the scanner arriving with previous
character `p`: every quote inside is preceded by a backslash (so scanning
the content never closes the literal early). -/
def content_ok (p : Option Char) : Str → Bool
  | [] => true
  | c :: rest => (!(c == '"') || p == some '\\') && content_ok (some c) rest

/-- The invariant of tokens produced by `tokenise_line`: items are
non-empty and contain only ordinary characters; literal contents never
contain an unescaped quote. -/
def token_wf : CodeToken → Bool
  | .Item s => !s.isEmpty && s.all ordinary_char
  | .Literal s => content_ok none s
  | _ => true

/-- The corresponding invariant on scanner states. -/
def state_wf : TokenisationState → Bool
  | .Waiting => true
  | .Token cur => !cur.isEmpty && cur.all ordinary_char
  | .StringLiteral cur => content_ok none cur

/-- The scanner state reached after reading the rendering of one token
from the `Waiting` state: an item is still pending, everything else has
been emitted. -/
def token_state : CodeToken → TokenisationState
  | .Item s => .Token s
  | _ => .Waiting

/-- The tokens emitted while reading the rendering of one token from the
`Waiting` state (the pending item excluded). -/
def token_done : CodeToken → List CodeToken
  | .Item _ => []
  | t => [t]

/-- The tokens emitted while scanning `render_rest prev ts`: at each
boundary the pending state of the previous token is flushed, then the next
token is emitted or left pending. -/
def render_emits : CodeToken → List CodeToken → List CodeToken
  | _, [] => []
  | prev, t :: ts =>
    flush_pending (token_state prev) ++ token_done t ++ render_emits t ts

/-- The last token of `prev :: ts`. -/
def last_token : CodeToken → List CodeToken → CodeToken
  | prev, [] => prev
  | _, t :: ts => last_token t ts

end Line

/-- An output line that names a label: it ends with a colon. -/
def is_label_line (l : Str) : Bool := endsWith ':' l

/-- The indentation property claimed for the output of `format` on a file
with a single text section: every non-blank, non-label line that comes
after some label line is prefixed with a tab. -/
def label_indent_claim (lines : List Str) : Prop :=
  ∀ i j : Fin lines.length, i < j → is_label_line (lines.get i) = true →
    is_label_line (lines.get j) = false → lines.get j ≠ [] →
    (lines.get j).head? = some '\t'

/-- Whether a code block occurs before the next procedure denoter (looking
forward through the list). -/
def code_ahead : List LineBlock → Bool
  | [] => false
  | b :: rest =>
    match b with
    | .Code _ => true
    | .ProcedureDenoter _ => false
    | _ => code_ahead rest

/-- The amended indentation pass, as the claim must read: after the first
label, every line of every code block gains one tab; a comment block gains
tabs exactly when a code block occurs after it before the next label; all
other blocks are untouched. -/
def indent_walk_spec : List LineBlock → List LineBlock
  | [] => []
  | b :: rest =>
    (match b with
     | .Code lines => LineBlock.Code (lines.map (fun l => '\t' :: l))
     | .Comment lines =>
       if code_ahead rest then LineBlock.Comment (lines.map (fun l => '\t' :: l))
       else LineBlock.Comment lines
     | b => b) :: indent_walk_spec rest

/-- The amended per-chunk indentation: blocks up to and including the first
label are untouched, the rest follow `indent_walk_spec`; a chunk with no
label is untouched. -/
def process_chunk_spec (chunk : List LineBlock) : List LineBlock :=
  match first_proc_index chunk with
  | none => chunk
  | some index => chunk.take (index + 1) ++ indent_walk_spec (chunk.drop (index + 1))

/-- `indent_step` with the amended per-chunk pass substituted. -/
def indent_step_spec (acc : List LineBlock × Bool × List LineBlock) (b : LineBlock) :
    List LineBlock × Bool × List LineBlock :=
  if is_data_denoter b then (acc.1 ++ process_chunk_spec acc.2.2 ++ [b], true, [])
  else if is_text_denoter b then (acc.1 ++ process_chunk_spec acc.2.2 ++ [b], false, [])
  else if acc.2.1 then (acc.1 ++ process_chunk_spec acc.2.2 ++ [b], true, [])
  else (acc.1, false, acc.2.2 ++ [b])

/-- `indent_blocks` with the amended per-chunk pass substituted. -/
def indent_blocks_spec (blocks : List LineBlock) : List LineBlock :=
  let r := blocks.foldl indent_step_spec (([] : List LineBlock), false, ([] : List LineBlock))
  r.1 ++ process_chunk_spec r.2.2

/-- The maximum formatted-code length over all lines of a block, as the
claim words it. -/
def max_code_length_all (block : List (Str × Str)) : Nat :=
  (block.map (fun p => p.1.length)).foldr max 0

/-- The maximum formatted-code length over the lines of a block that carry
a comment, as the claim words it. -/
def max_code_length_commented (block : List (Str × Str)) : Nat :=
  ((block.filter (fun p => !p.2.isEmpty)).map (fun p => p.1.length)).foldr max 0

/-- The claimed alignment column for a code block. -/
def spec_alignment_column (block : List (Str × Str)) : Nat :=
  if MAX_COMMENT_DISPARITY ≤ max_code_length_all block - max_code_length_commented block then
    max_code_length_commented block + 2
  else max_code_length_all block + 2

/-- Structural wellformedness of a line block as built by `consume_line`:
the line lists inside `Code`, `Data` and `Comment` blocks are non-empty. -/
def block_wf : LineBlock → Prop
  | .Code ls => ls ≠ []
  | .Data ls => ls ≠ []
  | .Comment ls => ls ≠ []
  | _ => True

/-- Whether a block is anything other than a blank separator. -/
def non_space : LineBlock → Bool
  | .Space => false
  | _ => true

/-- The invariant of the collapse loop in `consume_line_blocks`: away from
the `Preparing` state some line has been emitted and the last emitted line
is never blank, while in the `Preparing` state the output is either still
empty or ends in exactly one blank line. -/
def collapse_inv (acc : List Str × BlockCollapseState) : Prop :=
  (acc.2 ≠ .Preparing → acc.1 ≠ []) ∧
  (acc.2 = .Preparing → acc.1 = [] ∨ ∃ ys, ys ≠ [] ∧ acc.1 = ys ++ [[]])

/-! Theorems. -/

/-- C1: the claim says formatting is idempotent, but the code disagrees.
On the input line consisting of a label followed by a bare trailing
comment, the first pass splits the line and renders the dangling comment
as an indented code line, while the second pass reclassifies that line as
a comment block, so running `format` on its own output changes it. -/
theorem format_not_idempotent_on_split_label :
    format (format "main: #2".toList) ≠ format "main: #2".toList := by
  decide

/-- C2: the claim (and the repository test `comments_every_line`) says a
label line carrying only a trailing comment is NOT split, but
`possibly_split_line` splits at any colon that precedes the first hash,
with no exception for a comment-only remainder; consequently `format`
disagrees with the expected output of the repository's own test. -/
theorem label_with_trailing_comment_is_split :
    Line.possibly_split_line "main: #2".toList =
      Line.SplitLine.Two "main:".toList " #2".toList ∧
    format ".text # 1\nmain: #2\nli $v0, 1#3".toList ≠
      ".text  # 1\n\nmain:  # 2\n\tli $v0, 1  # 3\n".toList := by
  exact ⟨by decide, by decide⟩

/-- C3, counterexample: re-tokenising the formatted output is NOT always
the identity on token sequences. The input consisting of an unterminated
string literal whose content ends in a backslash is flushed as a literal,
rendered with a closing quote, and that closing quote is then swallowed
as an escaped character when re-tokenising. -/
theorem token_round_trip_counterexample :
    Line.tokenise_line (Line.format_code "\"a\\".toList) ≠
      Line.tokenise_line "\"a\\".toList := by
  decide

/-- C4: a single space is inserted between two adjacent tokens exactly for
the claimed pairs: an item, literal, comma or colon followed by an item or
literal, and a comma followed by an opening parenthesis. -/
theorem should_be_spaced_characterisation :
    ∀ left right : Line.CodeToken,
      Line.should_be_spaced left right = Line.space_rule_spec left right := by
  intro left right
  cases left <;> cases right <;> rfl

/-- C5, counterexample: in the output of `format` on a single-text-section
file, a comment line that sits strictly between one label and the next is
not indented when no code follows it before that next label, refuting the
claim that every non-blank, non-label line between labels is indented.
Line 3 of the output (the comment) violates the claimed property. -/
theorem label_body_indent_counterexample :
    ¬ label_indent_claim
        (format_lines "main:\nli $v0, 1\n# Comment 2\nother:\nli $v0, 1".toList) := by
  unfold label_indent_claim
  decide

/-- C7: the claim says the output never contains two consecutive empty
lines, but the code disagrees. A text line whose colon split leaves a
dot-led label part (hence a section denoter, not a procedure denoter) and
a whitespace-then-hash remainder produces an empty formatted code line
that is never indented, and the chunk compiler surrounds it with blanks. -/
theorem double_blank_lines_code_bug :
    format_lines ".x: #".toList = [".x:".toList, [], [], []] ∧
    format ".x: #".toList = ".x:\n\n\n".toList ∧
    ¬ List.Chain' (fun a b : Str => a ≠ [] ∨ b ≠ []) (format_lines ".x: #".toList) := by
  refine ⟨by decide, by decide, ?_⟩
  intro h
  rw [show format_lines ".x: #".toList = [".x:".toList, [], [], []] from by decide] at h
  simp [List.chain'_cons] at h

/-- C8, counterexample: a non-empty input consisting only of whitespace
produces an empty output, which does not end with a newline, refuting the
claim that every non-empty input yields a trailing newline. -/
theorem trailing_newline_counterexample :
    " ".toList ≠ ([] : Str) ∧ format " ".toList = [] ∧
    (format " ".toList).getLast? ≠ some '\n' := by
  exact ⟨by decide, by decide, by decide⟩

/-! Lemmas about the maxima computed by `comment_start_index`. -/

lemma le_foldr_max (l : List Nat) (x : Nat) (h : x ∈ l) : x ≤ l.foldr max 0 := by
  induction l with
  | nil => cases h
  | cons a t ih =>
    rcases List.mem_cons.mp h with rfl | h2
    · simp only [List.foldr_cons]
      exact le_max_left _ _
    · simp only [List.foldr_cons]
      exact le_trans (ih h2) (le_max_right _ _)

lemma foldr_max_le (l : List Nat) (b : Nat) (h : ∀ x ∈ l, x ≤ b) : l.foldr max 0 ≤ b := by
  induction l with
  | nil => exact Nat.zero_le b
  | cons a t ih =>
    simp only [List.foldr_cons]
    exact max_le (h a (by simp)) (ih fun x hx => h x (by simp [hx]))

lemma filterMap_comment_eq (block : List (Str × Str)) :
    block.filterMap (fun l => if l.2 = [] then none else some l.1.length) =
      (block.filter (fun p => !p.2.isEmpty)).map (fun p => p.1.length) := by
  induction block with
  | nil => rfl
  | cons p t ih =>
    by_cases h : p.2 = []
    · simp [List.filterMap_cons, List.filter_cons, h, ih]
    · simp [List.filterMap_cons, List.filter_cons, h, ih]

lemma max_commented_le_max_all (block : List (Str × Str)) :
    (block.filterMap (fun l => if l.2 = [] then none else some l.1.length)).foldr max 0 ≤
      (block.map (fun p => p.1.length)).foldr max 0 := by
  apply foldr_max_le
  intro x hx
  rcases List.mem_filterMap.mp hx with ⟨q, hq, hfx⟩
  by_cases h : q.2 = []
  · simp [h] at hfx
  · simp only [h, if_false, Option.some.injEq] at hfx
    subst hfx
    exact le_foldr_max _ _ (List.mem_map.mpr ⟨q, hq, rfl⟩)

lemma gap_le_csi (block : List (Str × Str)) (p : Str × Str) (hp : p ∈ block)
    (hc : p.2 ≠ []) : p.1.length + 2 ≤ comment_start_index block := by
  have h1 : p.1.length ≤
      (block.filterMap (fun l => if l.2 = [] then none else some l.1.length)).foldr max 0 :=
    le_foldr_max _ _ (List.mem_filterMap.mpr ⟨p, hp, by simp [hc]⟩)
  have h2 := max_commented_le_max_all block
  simp only [comment_start_index]
  split <;> omega

lemma comment_start_index_eq_spec (block : List (Str × Str)) :
    comment_start_index block = spec_alignment_column block := by
  simp only [comment_start_index, spec_alignment_column, max_code_length_all,
    max_code_length_commented, filterMap_comment_eq]

lemma csi_checked_eq (block : List (Str × Str)) :
    comment_start_index_checked block = some (comment_start_index block) := by
  have h2 := max_commented_le_max_all block
  simp only [comment_start_index_checked, comment_start_index, checked_sub, if_pos h2]
  split <;> rfl

lemma map_option_eq_map {α β : Type} (f : α → Option β) (g : α → β) (l : List α)
    (h : ∀ x ∈ l, f x = some (g x)) : map_option f l = some (l.map g) := by
  induction l with
  | nil => rfl
  | cons x xs ih =>
    simp only [map_option, h x (by simp), ih (fun y hy => h y (by simp [hy])),
      List.map_cons]

lemma fcb_checked_eq (lines : List Str) :
    format_code_block_checked lines = some (format_code_block lines) := by
  simp only [format_code_block_checked, format_code_block, csi_checked_eq]
  apply map_option_eq_map
  intro p hp
  by_cases h : p.2 = []
  · simp [h]
  · have hle : p.1.length ≤ comment_start_index (code_comment_pairs lines) := by
      have := gap_le_csi (code_comment_pairs lines) p hp h
      omega
    simp [h, checked_sub, hle]

lemma flb_checked_eq (b : LineBlock) :
    format_line_block_checked b = some (format_line_block b) := by
  cases b <;> simp [format_line_block_checked, format_line_block, fcb_checked_eq]

lemma format_checked_eq (contents : Str) :
    format_checked contents = some (format contents) := by
  simp only [format_checked, format, format_lines,
    map_option_eq_map format_line_block_checked format_line_block _
      (fun b _ => flb_checked_eq b)]

/-- C6: for every code block, the computed comment alignment column is
the maximum commented code length plus two when the disparity between the
overall maximum and the commented maximum reaches the threshold, and the
overall maximum plus two otherwise; each commented line is rendered with a
gap of exactly column minus its own code length. -/
theorem comment_alignment_column :
    ∀ lines : List Str,
      format_code_block lines =
        (code_comment_pairs lines).map (fun p =>
          if p.2 = [] then p.1
          else p.1 ++
            List.replicate (spec_alignment_column (code_comment_pairs lines) - p.1.length) ' ' ++
            ('#' :: ' ' :: p.2)) := by
  intro lines
  simp only [format_code_block, comment_start_index_eq_spec]

/-- C10: every line of a code block that carries a comment has formatted
code length at most the alignment column minus two, so the gap subtraction
in `format_code_block` never underflows. -/
theorem comment_gap_no_underflow :
    ∀ (block : List (Str × Str)) (p : Str × Str), p ∈ block → p.2 ≠ [] →
      p.1.length + 2 ≤ comment_start_index block :=
  fun block p hp hc => gap_le_csi block p hp hc

/-- Witness for C10 at a concrete one-line block. -/
theorem comment_gap_no_underflow_witness :
    ("li $v0, 1".toList, "x".toList).1.length + 2 ≤
      comment_start_index [("li $v0, 1".toList, "x".toList)] :=
  comment_gap_no_underflow _ _ (by simp) (by decide)

/-- C9: `format` never produces its error: on every input the fallible
model of the pipeline succeeds and returns `Ok` of the formatted text, so
neither a panic nor the `FormatError` branch is reachable. -/
theorem format_always_ok :
    ∀ contents : Str, format_result contents = some (Except.ok (format contents)) := by
  intro contents
  rw [format_result, format_checked_eq]
  rfl

/-! The indentation pass against its amended specification. -/

lemma indent_walk_eq (l : List LineBlock) :
    indent_walk l = (indent_walk_spec l, code_ahead l) := by
  induction l with
  | nil => rfl
  | cons b rest ih =>
    cases b <;>
      simp only [indent_walk, indent_walk_spec, code_ahead, ih, indent_block] <;>
      split <;> rfl

lemma process_chunk_eq (chunk : List LineBlock) :
    process_chunk chunk = process_chunk_spec chunk := by
  simp only [process_chunk, process_chunk_spec, indent_walk_eq]

/-- C5, amended: within each text chunk the indentation pass leaves every
block up to and including the first label untouched and, after it, indents
every line of every code block with one tab, indents a comment block
exactly when a code block occurs after it before the next label, and never
indents labels, blanks, data blocks or section denoters. -/
theorem indent_pass_amended :
    ∀ blocks : List LineBlock, indent_blocks blocks = indent_blocks_spec blocks := by
  have hstep : indent_step = indent_step_spec := by
    funext acc b
    simp only [indent_step, indent_step_spec, process_chunk_eq]
  intro blocks
  simp only [indent_blocks, indent_blocks_spec, hstep, process_chunk_eq]

/-! Wellformedness of the block list built by `split_into_line_blocks`. -/

lemma consume_line_wf (blocks : List LineBlock) (dir : Directive) (line : Str)
    (h : ∀ b ∈ blocks, block_wf b) :
    ∀ b ∈ (consume_line blocks dir line).1, block_wf b := by
  intro b hb
  unfold consume_line at hb
  repeat' split at hb
  all_goals
    first
    | exact h b hb
    | (rcases List.mem_cons.mp hb with rfl | hb2
       · first | trivial | simp [block_wf]
       · first | exact h b hb2 | exact h b (List.mem_cons_of_mem _ hb2))

lemma consume_line_any (blocks : List LineBlock) (dir : Directive) (line : Str)
    (h : blocks.any non_space = true) :
    ((consume_line blocks dir line).1).any non_space = true := by
  unfold consume_line
  repeat' split
  all_goals simp_all [non_space]

lemma consume_line_nonempty_any (blocks : List LineBlock) (dir : Directive) (line : Str)
    (hl : line ≠ []) :
    ((consume_line blocks dir line).1).any non_space = true := by
  unfold consume_line
  rw [if_neg hl]
  repeat' split
  all_goals simp [non_space]

lemma find_index_ne_nil {α : Type} (p : α → Bool) (l : List α) (i : Nat)
    (h : find_index p l = some i) : l ≠ [] := by
  intro he
  subst he
  simp [find_index] at h

lemma take_ne_nil (l : Str) (n : Nat) (hl : l ≠ []) (hn : n ≠ 0) : l.take n ≠ [] := by
  cases l with
  | nil => exact absurd rfl hl
  | cons c t =>
    cases n with
    | zero => exact absurd rfl hn
    | succ m => simp [List.take]

lemma possibly_split_one (line l : Str) (h : Line.possibly_split_line line = .One l) :
    l = line := by
  unfold Line.possibly_split_line at h
  repeat' split at h
  all_goals first | (injection h; simp_all) | cases h

lemma possibly_split_two_ne (line p1 p2 : Str)
    (h : Line.possibly_split_line line = .Two p1 p2) : p1 ≠ [] := by
  unfold Line.possibly_split_line at h
  split at h
  · rename_i colon_i hcolon
    split at h
    · split at h
      · injection h with h1 h2
        subst h1
        exact take_ne_nil _ _ (find_index_ne_nil _ _ _ hcolon) (by omega)
      · cases h
    · injection h with h1 h2
      subst h1
      exact take_ne_nil _ _ (find_index_ne_nil _ _ _ hcolon) (by omega)
  · cases h

lemma split_step_wf (acc : List LineBlock × Directive) (line : Str)
    (h : ∀ b ∈ acc.1, block_wf b) : ∀ b ∈ (split_step acc line).1, block_wf b := by
  unfold split_step
  split
  · exact consume_line_wf _ _ _ h
  · split
    · exact consume_line_wf _ _ _ h
    · exact consume_line_wf _ _ _ (consume_line_wf _ _ _ h)

lemma split_step_any (acc : List LineBlock × Directive) (line : Str)
    (h : acc.1.any non_space = true) : ((split_step acc line).1).any non_space = true := by
  unfold split_step
  split
  · exact consume_line_any _ _ _ h
  · split
    · exact consume_line_any _ _ _ h
    · exact consume_line_any _ _ _ (consume_line_any _ _ _ h)

lemma split_step_nonempty_any (acc : List LineBlock × Directive) (line : Str)
    (hl : line ≠ []) : ((split_step acc line).1).any non_space = true := by
  unfold split_step
  split
  · exact consume_line_nonempty_any _ _ _ hl
  · rcases hs : Line.possibly_split_line line with l | ⟨p1, p2⟩
    · exact consume_line_nonempty_any _ _ _ (possibly_split_one line l hs ▸ hl)
    · exact consume_line_any _ _ _
        (consume_line_nonempty_any _ _ _ (possibly_split_two_ne line p1 p2 hs))

lemma split_fold_wf (lines : List Str) : ∀ (acc : List LineBlock × Directive),
    (∀ b ∈ acc.1, block_wf b) → ∀ b ∈ (lines.foldl split_step acc).1, block_wf b := by
  induction lines with
  | nil => intro acc h; exact h
  | cons l t ih => intro acc h; exact ih _ (split_step_wf _ _ h)

lemma split_fold_any (lines : List Str) : ∀ (acc : List LineBlock × Directive),
    acc.1.any non_space = true → ((lines.foldl split_step acc).1).any non_space = true := by
  induction lines with
  | nil => intro acc h; exact h
  | cons l t ih => intro acc h; exact ih _ (split_step_any _ _ h)

lemma split_fold_nonempty_any (lines : List Str) : ∀ (acc : List LineBlock × Directive),
    (∃ l ∈ lines, l ≠ []) → ((lines.foldl split_step acc).1).any non_space = true := by
  induction lines with
  | nil =>
    rintro acc ⟨l, hl, -⟩
    cases hl
  | cons x t ih =>
    rintro acc ⟨l, hl, hlne⟩
    rcases List.mem_cons.mp hl with rfl | hmem
    · exact split_fold_any t _ (split_step_nonempty_any _ _ hlne)
    · exact ih _ ⟨l, hmem, hlne⟩

lemma split_blocks_wf (lines : List Str) : ∀ b ∈ split_into_line_blocks lines, block_wf b := by
  intro b hb
  unfold split_into_line_blocks at hb
  refine split_fold_wf lines _ ?_ b (List.mem_reverse.mp hb)
  intro b hb2
  rcases List.mem_cons.mp hb2 with rfl | h
  · trivial
  · cases h

lemma split_blocks_any (lines : List Str) (h : ∃ l ∈ lines, l ≠ []) :
    (split_into_line_blocks lines).any non_space = true := by
  unfold split_into_line_blocks
  rw [List.any_reverse]
  exact split_fold_nonempty_any lines _ h

/-! The per-block formatting stage preserves wellformedness and shape. -/

lemma format_code_block_length (lines : List Str) :
    (format_code_block lines).length = lines.length := by
  simp [format_code_block, code_comment_pairs]

lemma flb_wf (b : LineBlock) (h : block_wf b) : block_wf (format_line_block b) := by
  cases b with
  | Code ls =>
    have : (format_code_block ls).length = ls.length := format_code_block_length ls
    simp only [format_line_block, block_wf] at h ⊢
    intro he
    rw [he] at this
    exact h (List.length_eq_zero.mp this.symm)
  | Data ls =>
    have : (format_code_block ls).length = ls.length := format_code_block_length ls
    simp only [format_line_block, block_wf] at h ⊢
    intro he
    rw [he] at this
    exact h (List.length_eq_zero.mp this.symm)
  | Comment ls =>
    simp only [format_line_block, block_wf] at h ⊢
    intro he
    exact h (List.map_eq_nil_iff.mp he)
  | Space => trivial
  | DataModifier line => trivial
  | SectionDenoter line => trivial
  | ProcedureDenoter line => trivial

lemma flb_non_space (b : LineBlock) : non_space (format_line_block b) = non_space b := by
  cases b <;> rfl

lemma map_flb_any (blocks : List LineBlock) :
    ((blocks.map format_line_block).any non_space) = blocks.any non_space := by
  rw [List.any_map]
  congr 1
  funext b
  exact flb_non_space b

/-! The indentation pass preserves wellformedness and shape. -/

lemma indent_block_wf (b : LineBlock) (h : block_wf b) : block_wf (indent_block b) := by
  cases b <;> simp_all [indent_block, block_wf]

lemma indent_walk_wf (l : List LineBlock) (h : ∀ b ∈ l, block_wf b) :
    ∀ b ∈ (indent_walk l).1, block_wf b := by
  induction l with
  | nil => intro b hb; cases hb
  | cons hd t ih =>
    have hhd : block_wf hd := h hd (by simp)
    have ht : ∀ b ∈ t, block_wf b := fun b hb => h b (List.mem_cons_of_mem _ hb)
    intro b hb
    unfold indent_walk at hb
    rcases hd with _ | ls | ls | line | ls | line | line <;>
      simp only at hb
    case Space =>
      rcases List.mem_cons.mp hb with rfl | hb2
      · trivial
      · exact ih ht b hb2
    case Code =>
      rcases List.mem_cons.mp hb with rfl | hb2
      · exact indent_block_wf _ hhd
      · exact ih ht b hb2
    case Data =>
      rcases List.mem_cons.mp hb with rfl | hb2
      · exact hhd
      · exact ih ht b hb2
    case DataModifier =>
      rcases List.mem_cons.mp hb with rfl | hb2
      · exact hhd
      · exact ih ht b hb2
    case Comment =>
      split at hb <;> rcases List.mem_cons.mp hb with rfl | hb2
      · exact indent_block_wf _ hhd
      · exact ih ht b hb2
      · exact hhd
      · exact ih ht b hb2
    case SectionDenoter =>
      rcases List.mem_cons.mp hb with rfl | hb2
      · exact hhd
      · exact ih ht b hb2
    case ProcedureDenoter =>
      rcases List.mem_cons.mp hb with rfl | hb2
      · exact hhd
      · exact ih ht b hb2

lemma process_chunk_wf (l : List LineBlock) (h : ∀ b ∈ l, block_wf b) :
    ∀ b ∈ process_chunk l, block_wf b := by
  unfold process_chunk
  split
  · exact h
  · intro b hb
    rcases List.mem_append.mp hb with hb2 | hb2
    · exact h b (List.take_subset _ _ hb2)
    · exact indent_walk_wf _ (fun x hx => h x (List.drop_subset _ _ hx)) b hb2

lemma indent_block_non_space (b : LineBlock) : non_space (indent_block b) = non_space b := by
  cases b <;> rfl

lemma indent_walk_ns (l : List LineBlock) :
    ((indent_walk l).1).map non_space = l.map non_space := by
  induction l with
  | nil => rfl
  | cons hd t ih =>
    unfold indent_walk
    rcases hd with _ | ls | ls | line | ls | line | line <;>
      simp only [List.map_cons, ih, indent_block, non_space]
    case Comment => split <;> simp [ih, indent_block, non_space]

lemma process_chunk_ns (l : List LineBlock) :
    (process_chunk l).map non_space = l.map non_space := by
  unfold process_chunk
  split
  · rfl
  · rw [List.map_append, indent_walk_ns, List.map_take, List.map_drop,
      List.take_append_drop]

lemma indent_fold_ns (blocks : List LineBlock) : ∀ acc,
    (((blocks.foldl indent_step acc).1).map non_space ++
      ((blocks.foldl indent_step acc).2.2).map non_space) =
      (acc.1.map non_space ++ acc.2.2.map non_space) ++ blocks.map non_space := by
  induction blocks with
  | nil => intro acc; simp
  | cons b t ih =>
    intro acc
    rw [List.foldl_cons, ih]
    have hstep : ((indent_step acc b).1.map non_space ++
        (indent_step acc b).2.2.map non_space) =
        (acc.1.map non_space ++ acc.2.2.map non_space) ++ [non_space b] := by
      unfold indent_step
      split_ifs <;> simp [process_chunk_ns]
    rw [hstep]
    simp

lemma indent_blocks_ns (blocks : List LineBlock) :
    (indent_blocks blocks).map non_space = blocks.map non_space := by
  unfold indent_blocks
  rw [List.map_append, process_chunk_ns]
  have := indent_fold_ns blocks ([], false, [])
  simpa using this

lemma any_map_id {α : Type} (l : List α) (f : α → Bool) : l.any f = (l.map f).any id := by
  induction l with
  | nil => rfl
  | cons a t ih => simp [List.any_cons, ih]

lemma indent_blocks_any (blocks : List LineBlock) :
    (indent_blocks blocks).any non_space = blocks.any non_space := by
  rw [any_map_id (indent_blocks blocks) non_space, any_map_id blocks non_space,
    indent_blocks_ns]

lemma indent_fold_wf (blocks : List LineBlock) : ∀ acc,
    (∀ b ∈ acc.1, block_wf b) → (∀ b ∈ acc.2.2, block_wf b) →
    (∀ b ∈ blocks, block_wf b) →
    (∀ b ∈ (blocks.foldl indent_step acc).1, block_wf b) ∧
    (∀ b ∈ (blocks.foldl indent_step acc).2.2, block_wf b) := by
  induction blocks with
  | nil => intro acc h1 h2 _; exact ⟨h1, h2⟩
  | cons b t ih =>
    intro acc h1 h2 h3
    rw [List.foldl_cons]
    have hb : block_wf b := h3 b (by simp)
    have ht : ∀ x ∈ t, block_wf x := fun x hx => h3 x (List.mem_cons_of_mem _ hx)
    refine ih _ ?_ ?_ ht
    · intro x hx
      unfold indent_step at hx
      split_ifs at hx
      all_goals
        first
        | exact h1 x hx
        | (rcases List.mem_append.mp hx with hx2 | hx2
           · rcases List.mem_append.mp hx2 with hx3 | hx3
             · exact h1 x hx3
             · exact process_chunk_wf _ h2 x hx3
           · rcases List.mem_singleton.mp hx2 with rfl
             exact hb)
    · intro x hx
      unfold indent_step at hx
      split_ifs at hx
      all_goals
        first
        | cases hx
        | (rcases List.mem_append.mp hx with hx2 | hx2
           · exact h2 x hx2
           · rcases List.mem_singleton.mp hx2 with rfl
             exact hb)

lemma indent_blocks_wf (blocks : List LineBlock) (h : ∀ b ∈ blocks, block_wf b) :
    ∀ b ∈ indent_blocks blocks, block_wf b := by
  have hfold := indent_fold_wf blocks ([], false, []) (by intro b hb; cases hb)
    (by intro b hb; cases hb) h
  intro b hb
  unfold indent_blocks at hb
  rcases List.mem_append.mp hb with hb2 | hb2
  · exact hfold.1 b hb2
  · exact process_chunk_wf _ hfold.2 b hb2

/-! The collapse loop of `consume_line_blocks`. -/

lemma consume_step_grows (acc : List Str × BlockCollapseState) (b : LineBlock) :
    ∃ suff, (consume_block_step acc b).1 = acc.1 ++ suff := by
  obtain ⟨out, st⟩ := acc
  cases b <;> cases st <;> simp [consume_block_step]

lemma consume_fold_grows (bs : List LineBlock) : ∀ acc,
    ∃ suff, (bs.foldl consume_block_step acc).1 = acc.1 ++ suff := by
  induction bs with
  | nil => intro acc; exact ⟨[], by simp⟩
  | cons b t ih =>
    intro acc
    rw [List.foldl_cons]
    obtain ⟨s1, hs1⟩ := consume_step_grows acc b
    obtain ⟨s2, hs2⟩ := ih (consume_block_step acc b)
    exact ⟨s1 ++ s2, by rw [hs2, hs1, List.append_assoc]⟩

lemma consume_step_ne (acc : List Str × BlockCollapseState) (b : LineBlock)
    (hwf : block_wf b) (hb : non_space b = true) :
    (consume_block_step acc b).1 ≠ [] := by
  obtain ⟨out, st⟩ := acc
  cases b <;> cases st <;> simp_all [consume_block_step, non_space, block_wf]

lemma consume_fold_ne (bs : List LineBlock) : ∀ acc,
    (∀ b ∈ bs, block_wf b) → bs.any non_space = true →
    (bs.foldl consume_block_step acc).1 ≠ [] := by
  induction bs with
  | nil => intro acc _ hany; cases hany
  | cons b t ih =>
    intro acc hwf hany
    rw [List.foldl_cons]
    cases hb : non_space b with
    | true =>
      obtain ⟨suff, hsuff⟩ := consume_fold_grows t (consume_block_step acc b)
      rw [hsuff]
      have := consume_step_ne acc b (hwf b (by simp)) hb
      intro he
      exact this (List.append_eq_nil.mp he).1
    | false =>
      have hany2 : t.any non_space = true := by
        rw [List.any_cons, hb] at hany
        simpa using hany
      exact ih _ (fun x hx => hwf x (List.mem_cons_of_mem _ hx)) hany2

lemma shape_append (out zs : List Str) (h : out ++ zs ≠ []) :
    ∃ ys, ys ≠ [] ∧ out ++ (zs ++ [[]]) = ys ++ [[]] :=
  ⟨out ++ zs, h, (List.append_assoc out zs [[]]).symm⟩

lemma shape_concat (out zs : List Str) (h : out ++ zs ≠ []) :
    ∃ ys, ys ≠ [] ∧ out ++ zs ++ [[]] = ys ++ [[]] :=
  ⟨out ++ zs, h, rfl⟩

lemma consume_step_inv (acc : List Str × BlockCollapseState) (b : LineBlock)
    (hwf : block_wf b) (hinv : collapse_inv acc) :
    collapse_inv (consume_block_step acc b) := by
  obtain ⟨out, st⟩ := acc
  obtain ⟨h1, h2⟩ := hinv
  simp only at h1 h2
  cases b with
  | Space =>
    cases st with
    | AfterComment =>
      refine ⟨fun hst => absurd rfl hst, fun _ => Or.inr ⟨out, h1 (by simp), rfl⟩⟩
    | Preparing => exact ⟨h1, h2⟩
    | AfterProcedure => exact ⟨h1, h2⟩
    | AfterDataModifer => exact ⟨h1, h2⟩
  | Code lines =>
    have hl : lines ≠ [] := hwf
    cases st <;>
      exact ⟨fun hst => absurd rfl hst,
        fun _ => Or.inr (shape_concat out lines (by simp [hl]))⟩
  | Data lines =>
    have hl : lines ≠ [] := hwf
    cases st <;>
      exact ⟨fun hst => absurd rfl hst,
        fun _ => Or.inr (shape_concat out lines (by simp [hl]))⟩
  | Comment lines =>
    have hl : lines ≠ [] := hwf
    cases st <;> exact ⟨fun _ => by simp [consume_block_step, hl], fun hst => by cases hst⟩
  | DataModifier line =>
    cases st <;> exact ⟨fun _ => by simp [consume_block_step], fun hst => by cases hst⟩
  | ProcedureDenoter line =>
    cases st <;> exact ⟨fun _ => by simp [consume_block_step], fun hst => by cases hst⟩
  | SectionDenoter line =>
    cases st with
    | AfterProcedure =>
      refine ⟨fun hst => absurd rfl hst, fun _ => ?_⟩
      exact Or.inr (shape_append out [[], line] (by simp))
    | AfterDataModifer =>
      refine ⟨fun hst => absurd rfl hst, fun _ => ?_⟩
      exact Or.inr (shape_append out [[], line] (by simp))
    | Preparing =>
      refine ⟨fun hst => absurd rfl hst, fun _ => ?_⟩
      exact Or.inr (shape_append out [line] (by simp))
    | AfterComment =>
      refine ⟨fun hst => absurd rfl hst, fun _ => ?_⟩
      exact Or.inr (shape_append out [line] (by simp))

lemma consume_fold_inv (bs : List LineBlock) : ∀ acc,
    (∀ b ∈ bs, block_wf b) → collapse_inv acc →
    collapse_inv (bs.foldl consume_block_step acc) := by
  induction bs with
  | nil => intro acc _ hinv; exact hinv
  | cons b t ih =>
    intro acc hwf hinv
    rw [List.foldl_cons]
    exact ih _ (fun x hx => hwf x (List.mem_cons_of_mem _ hx))
      (consume_step_inv acc b (hwf b (by simp)) hinv)

lemma consume_line_blocks_eq (bs : List LineBlock) :
    consume_line_blocks bs =
      (match (bs.foldl consume_block_step ([], .Preparing)).2 with
       | .Preparing => (bs.foldl consume_block_step ([], .Preparing)).1
       | _ => (bs.foldl consume_block_step ([], .Preparing)).1 ++ [[]]) := rfl

lemma consume_out_shape (bs : List LineBlock) (hwf : ∀ b ∈ bs, block_wf b)
    (hany : bs.any non_space = true) :
    ∃ ys, ys ≠ [] ∧ consume_line_blocks bs = ys ++ [[]] := by
  have hinv := consume_fold_inv bs ([], .Preparing) hwf
    ⟨fun hst => absurd rfl hst, fun _ => Or.inl rfl⟩
  have hne := consume_fold_ne bs ([], .Preparing) hwf hany
  obtain ⟨h1, h2⟩ := hinv
  rw [consume_line_blocks_eq]
  cases hst : (bs.foldl consume_block_step ([], BlockCollapseState.Preparing)).2 with
  | Preparing =>
    rcases h2 hst with h | ⟨ys, hys, heq⟩
    · exact absurd h hne
    · exact ⟨ys, hys, heq⟩
  | AfterComment =>
    exact ⟨_, h1 (by rw [hst]; intro hc; cases hc), rfl⟩
  | AfterProcedure =>
    exact ⟨_, h1 (by rw [hst]; intro hc; cases hc), rfl⟩
  | AfterDataModifer =>
    exact ⟨_, h1 (by rw [hst]; intro hc; cases hc), rfl⟩

lemma getLast?_append_of_ne_nil {α : Type} (l₁ l₂ : List α) (h : l₂ ≠ []) :
    (l₁ ++ l₂).getLast? = l₂.getLast? := by
  induction l₁ with
  | nil => rfl
  | cons a t ih =>
    obtain ⟨c, cs, hcc⟩ := List.exists_cons_of_ne_nil
      (show t ++ l₂ ≠ [] by simp [h])
    rw [List.cons_append, hcc, List.getLast?_cons_cons, ← hcc, ih]

lemma join_lines_ends (ys : List Str) (h : ys ≠ []) :
    (join_lines (ys ++ [[]])).getLast? = some '\n' := by
  induction ys with
  | nil => exact absurd rfl h
  | cons y t ih =>
    cases t with
    | nil =>
      show (join_lines [y, []]).getLast? = some '\n'
      have : join_lines [y, []] = y ++ ['\n'] := by rfl
      rw [this, getLast?_append_of_ne_nil _ _ (by simp)]
      rfl
    | cons y2 t2 =>
      have ihe := ih (by simp)
      have hne : join_lines ((y2 :: t2) ++ [[]]) ≠ [] := by
        intro hc
        rw [hc] at ihe
        cases ihe
      show (y ++ '\n' :: join_lines ((y2 :: t2) ++ [[]])).getLast? = some '\n'
      rw [getLast?_append_of_ne_nil _ _ (by simp)]
      obtain ⟨c, cs, hcc⟩ := List.exists_cons_of_ne_nil hne
      rw [hcc, List.getLast?_cons_cons, ← hcc]
      exact ihe

/-! Blank-only inputs. -/

lemma split_step_blank (dir : Directive) : split_step ([LineBlock.Space], dir) [] =
    ([LineBlock.Space], dir) := by
  cases dir <;> rfl

lemma split_fold_blank (lines : List Str) : ∀ dir, (∀ l ∈ lines, l = []) →
    lines.foldl split_step ([LineBlock.Space], dir) = ([LineBlock.Space], dir) := by
  induction lines with
  | nil => intro dir _; rfl
  | cons x t ih =>
    intro dir h
    rw [List.foldl_cons, h x (by simp), split_step_blank]
    exact ih dir (fun l hl => h l (List.mem_cons_of_mem _ hl))

lemma format_all_blank (s : Str) (h : ∀ l ∈ rustLines s, rustTrim l = []) :
    format s = [] := by
  have h' : ∀ l ∈ (rustLines s).map rustTrim, l = [] := by
    intro l hl
    rcases List.mem_map.mp hl with ⟨x, hx, rfl⟩
    exact h x hx
  simp only [format, format_lines, split_into_line_blocks]
  rw [split_fold_blank _ Directive.Text h']
  rfl

/-- C8, amended: an input with at least one line that is non-blank after
trimming formats to a string ending in a newline, while an input all of
whose lines are blank (in particular the empty input) formats to the
empty string. -/
theorem trailing_newline_amended :
    ∀ s : Str,
      ((∃ l ∈ rustLines s, rustTrim l ≠ []) → (format s).getLast? = some '\n') ∧
      ((∀ l ∈ rustLines s, rustTrim l = []) → format s = []) := by
  intro s
  constructor
  · rintro ⟨l, hl, hlne⟩
    have hex : ∃ x ∈ (rustLines s).map rustTrim, x ≠ [] :=
      ⟨rustTrim l, List.mem_map.mpr ⟨l, hl, rfl⟩, hlne⟩
    have hwf0 := split_blocks_wf ((rustLines s).map rustTrim)
    have hany0 := split_blocks_any ((rustLines s).map rustTrim) hex
    have hwf1 : ∀ b ∈ (split_into_line_blocks ((rustLines s).map rustTrim)).map
        format_line_block, block_wf b := by
      intro b hb
      rcases List.mem_map.mp hb with ⟨a, ha, rfl⟩
      exact flb_wf a (hwf0 a ha)
    have hany1 : ((split_into_line_blocks ((rustLines s).map rustTrim)).map
        format_line_block).any non_space = true := by
      rw [map_flb_any]
      exact hany0
    have hwf2 := indent_blocks_wf _ hwf1
    have hany2 : (indent_blocks ((split_into_line_blocks
        ((rustLines s).map rustTrim)).map format_line_block)).any non_space = true := by
      rw [indent_blocks_any]
      exact hany1
    obtain ⟨ys, hys, heq⟩ := consume_out_shape _ hwf2 hany2
    show (format s).getLast? = some '\n'
    have hfmt : format s = join_lines (consume_line_blocks (indent_blocks
        ((split_into_line_blocks ((rustLines s).map rustTrim)).map format_line_block))) := rfl
    rw [hfmt, heq]
    exact join_lines_ends ys hys
  · exact format_all_blank s

/-- Witness for C8 at concrete inputs: a one-instruction file gains a
trailing newline, and a whitespace-only file formats to the empty string. -/
theorem trailing_newline_amended_witness :
    (format "syscall".toList).getLast? = some '\n' ∧ format " \n ".toList = [] :=
  ⟨(trailing_newline_amended "syscall".toList).1 (by decide),
   (trailing_newline_amended " \n ".toList).2 (by decide)⟩

namespace Line

/-! The scanner as a fold: unfolding equations. -/

lemma tokenise_chars_nil (st : TokenisationState) : tokenise_chars st [] = ([], st) := rfl

lemma tokenise_chars_go (code : Str) : ∀ (st : TokenisationState) (toks : List CodeToken),
    code.foldl (fun acc c =>
      let r := receive_next_char acc.2 c
      (acc.1 ++ r.1, r.2)) (toks, st)
      = (toks ++ (tokenise_chars st code).1, (tokenise_chars st code).2) := by
  induction code with
  | nil => intro st toks; simp [tokenise_chars]
  | cons c rest ih =>
    intro st toks
    rw [List.foldl_cons]
    show rest.foldl _ (toks ++ (receive_next_char st c).1, (receive_next_char st c).2) = _
    rw [ih]
    have hr : tokenise_chars st (c :: rest)
        = ((receive_next_char st c).1 ++ (tokenise_chars (receive_next_char st c).2 rest).1,
           (tokenise_chars (receive_next_char st c).2 rest).2) := by
      unfold tokenise_chars
      rw [List.foldl_cons]
      show rest.foldl _ ([] ++ (receive_next_char st c).1, (receive_next_char st c).2) = _
      rw [List.nil_append]
      have := ih (receive_next_char st c).2 (receive_next_char st c).1
      rw [this]
      rfl
    rw [hr]
    simp

lemma tokenise_chars_cons (st : TokenisationState) (c : Char) (rest : Str) :
    tokenise_chars st (c :: rest)
      = ((receive_next_char st c).1 ++ (tokenise_chars (receive_next_char st c).2 rest).1,
         (tokenise_chars (receive_next_char st c).2 rest).2) := by
  unfold tokenise_chars
  rw [List.foldl_cons]
  show rest.foldl _ ([] ++ (receive_next_char st c).1, (receive_next_char st c).2) = _
  rw [List.nil_append]
  exact tokenise_chars_go rest _ _

lemma tokenise_chars_append (st : TokenisationState) (a b : Str) :
    tokenise_chars st (a ++ b)
      = ((tokenise_chars st a).1 ++ (tokenise_chars (tokenise_chars st a).2 b).1,
         (tokenise_chars (tokenise_chars st a).2 b).2) := by
  unfold tokenise_chars
  rw [List.foldl_append]
  have h1 : a.foldl (fun acc c =>
      let r := receive_next_char acc.2 c
      (acc.1 ++ r.1, r.2)) ([], st) = tokenise_chars st a := rfl
  rw [h1]
  have h2 := tokenise_chars_go b (tokenise_chars st a).2 (tokenise_chars st a).1
  calc b.foldl _ (tokenise_chars st a) = b.foldl (fun acc c =>
        let r := receive_next_char acc.2 c
        (acc.1 ++ r.1, r.2)) ((tokenise_chars st a).1, (tokenise_chars st a).2) := rfl
    _ = _ := h2

/-! Scanning the rendering of wellformed tokens. -/

lemma receive_token_ordinary (acc : Str) (c : Char) (h : ordinary_char c = true) :
    receive_next_char (.Token acc) c = ([], .Token (acc ++ [c])) := by
  simp only [ordinary_char, Bool.and_eq_true, Bool.not_eq_true'] at h
  obtain ⟨⟨hws, hdel⟩, hq⟩ := h
  simp only [receive_next_char, hws, hdel, Bool.false_eq_true, if_false]
  rw [if_neg (by simpa using hq)]

lemma scan_item (s : Str) : ∀ acc, s.all ordinary_char = true →
    tokenise_chars (.Token acc) s = ([], .Token (acc ++ s)) := by
  induction s with
  | nil => intro acc _; simp [tokenise_chars_nil]
  | cons c rest ih =>
    intro acc hall
    rw [List.all_cons, Bool.and_eq_true] at hall
    rw [tokenise_chars_cons, receive_token_ordinary acc c hall.1]
    rw [ih (acc ++ [c]) hall.2]
    simp

lemma receive_literal_content (acc : Str) (c : Char)
    (h : (!(c == '"') || acc.getLast? == some '\\') = true) :
    receive_next_char (.StringLiteral acc) c = ([], .StringLiteral (acc ++ [c])) := by
  simp only [receive_next_char, ends_with_backslash]
  rw [if_neg]
  intro hc
  rw [Bool.and_eq_true, Bool.not_eq_true'] at hc
  rcases Bool.or_eq_true_iff.mp h with h2 | h2
  · rw [Bool.not_eq_true'] at h2
    rw [beq_eq_false_iff_ne] at h2
    exact h2 (by simpa using hc.1)
  · rw [hc.2] at h2
    cases h2

lemma scan_literal_content (s : Str) : ∀ acc, content_ok acc.getLast? s = true →
    tokenise_chars (.StringLiteral acc) s = ([], .StringLiteral (acc ++ s)) := by
  induction s with
  | nil => intro acc _; simp [tokenise_chars_nil]
  | cons c rest ih =>
    intro acc hok
    rw [content_ok, Bool.and_eq_true] at hok
    rw [tokenise_chars_cons, receive_literal_content acc c hok.1]
    have hlast : (acc ++ [c]).getLast? = some c := List.getLast?_concat acc
    rw [ih (acc ++ [c]) (by rw [hlast]; exact hok.2)]
    simp

lemma scan_token_render (t : CodeToken) (hwf : token_wf t = true)
    (hlit : literal_tail_ok t = true) :
    tokenise_chars .Waiting t.to_string = (token_done t, token_state t) := by
  cases t with
  | Item s =>
    rw [token_wf, Bool.and_eq_true] at hwf
    obtain ⟨hne, hall⟩ := hwf
    cases s with
    | nil => simp at hne
    | cons c cs =>
      rw [List.all_cons, Bool.and_eq_true] at hall
      show tokenise_chars .Waiting (c :: cs) = ([], .Token (c :: cs))
      rw [tokenise_chars_cons]
      have hoc := hall.1
      simp only [ordinary_char, Bool.and_eq_true, Bool.not_eq_true'] at hoc
      obtain ⟨⟨hws, hdel⟩, hq⟩ := hoc
      have hrc : receive_next_char .Waiting c = ([], .Token [c]) := by
        simp only [receive_next_char, hws, hdel, Bool.false_eq_true, if_false]
        rw [if_neg (by simpa using hq)]
      rw [hrc, scan_item cs [c] hall.2]
      simp
  | Literal s =>
    have hok : content_ok (List.getLast? []) s = true := hwf
    have h2 := scan_literal_content s [] hok
    rw [List.nil_append] at h2
    show tokenise_chars .Waiting ('"' :: (s ++ ['"'])) = ([.Literal s], .Waiting)
    rw [tokenise_chars_cons]
    have h1 : receive_next_char .Waiting '"' = ([], .StringLiteral []) := by decide
    rw [h1, tokenise_chars_append, h2]
    have hend : (s.getLast? == some '\\') = false := by
      have he : literal_tail_ok (.Literal s) = !(s.getLast? == some '\\') := rfl
      rw [he] at hlit
      simpa using hlit
    have h3 : tokenise_chars (.StringLiteral s) ['"'] = ([.Literal s], .Waiting) := by
      rw [tokenise_chars_cons]
      have hr : receive_next_char (.StringLiteral s) '"' = ([.Literal s], .Waiting) := by
        simp [receive_next_char, ends_with_backslash, hend]
      rw [hr, tokenise_chars_nil]
      simp
    rw [h3]
    simp
  | Comma => decide
  | Colon => decide
  | ParenOpen => decide
  | ParenClose => decide

lemma scan_sep_render (prev t : CodeToken)
    (hwt : token_wf t = true) (hlt : literal_tail_ok t = true) :
    tokenise_chars (token_state prev)
      ((if should_be_spaced prev t then [' '] else []) ++ t.to_string)
      = (flush_pending (token_state prev) ++ token_done t, token_state t) := by
  by_cases hsp : should_be_spaced prev t = true
  · rw [if_pos hsp]
    show tokenise_chars (token_state prev) (' ' :: t.to_string) = _
    rw [tokenise_chars_cons]
    have hr : receive_next_char (token_state prev) ' '
        = (flush_pending (token_state prev), .Waiting) := by
      cases prev <;> rfl
    rw [hr, scan_token_render t hwt hlt]
  · rw [if_neg hsp, List.nil_append]
    cases prev with
    | Item s =>
      cases t with
      | Item s2 => simp [should_be_spaced] at hsp
      | Literal s2 => simp [should_be_spaced] at hsp
      | Comma =>
        show tokenise_chars (.Token s) [','] = ([.Item s, .Comma], .Waiting)
        rw [tokenise_chars_cons]
        have hr : receive_next_char (.Token s) ',' = ([.Item s, .Comma], .Waiting) := rfl
        rw [hr, tokenise_chars_nil]
        simp
      | Colon =>
        show tokenise_chars (.Token s) [':'] = ([.Item s, .Colon], .Waiting)
        rw [tokenise_chars_cons]
        have hr : receive_next_char (.Token s) ':' = ([.Item s, .Colon], .Waiting) := rfl
        rw [hr, tokenise_chars_nil]
        simp
      | ParenOpen =>
        show tokenise_chars (.Token s) ['('] = ([.Item s, .ParenOpen], .Waiting)
        rw [tokenise_chars_cons]
        have hr : receive_next_char (.Token s) '(' = ([.Item s, .ParenOpen], .Waiting) := rfl
        rw [hr, tokenise_chars_nil]
        simp
      | ParenClose =>
        show tokenise_chars (.Token s) [')'] = ([.Item s, .ParenClose], .Waiting)
        rw [tokenise_chars_cons]
        have hr : receive_next_char (.Token s) ')' = ([.Item s, .ParenClose], .Waiting) := rfl
        rw [hr, tokenise_chars_nil]
        simp
    | Comma => simpa using scan_token_render t hwt hlt
    | Colon => simpa using scan_token_render t hwt hlt
    | ParenOpen => simpa using scan_token_render t hwt hlt
    | ParenClose => simpa using scan_token_render t hwt hlt
    | Literal s => simpa using scan_token_render t hwt hlt

lemma scan_render_rest (ts : List CodeToken) : ∀ prev : CodeToken,
    (∀ x ∈ ts, token_wf x = true) → (∀ x ∈ ts, literal_tail_ok x = true) →
    tokenise_chars (token_state prev) (render_rest prev ts)
      = (render_emits prev ts, token_state (last_token prev ts)) := by
  induction ts with
  | nil => intro prev _ _; exact tokenise_chars_nil _
  | cons t ts2 ih =>
    intro prev hwts hlts
    have hsplit : render_rest prev (t :: ts2)
        = ((if should_be_spaced prev t then [' '] else []) ++ t.to_string)
          ++ render_rest t ts2 := by
      rw [render_rest, List.append_assoc]
    rw [hsplit, tokenise_chars_append,
      scan_sep_render prev t (hwts t (by simp)) (hlts t (by simp)),
      ih t (fun x hx => hwts x (by simp [hx])) (fun x hx => hlts x (by simp [hx]))]
    simp [render_emits, last_token, List.append_assoc]

lemma done_flush (t : CodeToken) :
    token_done t ++ flush_pending (token_state t) = [t] := by
  cases t <;> rfl

lemma emits_flush (ts : List CodeToken) : ∀ prev : CodeToken,
    render_emits prev ts ++ flush_pending (token_state (last_token prev ts))
      = flush_pending (token_state prev) ++ ts := by
  induction ts with
  | nil => intro prev; simp [render_emits, last_token]
  | cons t ts2 ih =>
    intro prev
    simp only [render_emits, last_token]
    rw [List.append_assoc, List.append_assoc, ih t,
      ← List.append_assoc (token_done t), done_flush]
    rfl

/-! Every token produced by `tokenise_line` is wellformed. -/

lemma last_or_none (cur : Str) : last_or none cur = cur.getLast? := by
  unfold last_or
  cases h : cur.getLast? <;> rfl

lemma last_or_cons (p : Option Char) (d : Char) (rest : Str) :
    last_or p (d :: rest) = last_or (some d) rest := by
  cases rest with
  | nil => rfl
  | cons e es =>
    unfold last_or
    rw [List.getLast?_cons_cons]
    cases hg : (e :: es).getLast? with
    | some x => rfl
    | none =>
      rw [List.getLast?_eq_none_iff] at hg
      cases hg

lemma content_ok_append (cur : Str) (c : Char) : ∀ p, content_ok p cur = true →
    (!(c == '"') || last_or p cur == some '\\') = true →
    content_ok p (cur ++ [c]) = true := by
  induction cur with
  | nil =>
    intro p h1 h2
    show content_ok p [c] = true
    rw [content_ok, content_ok]
    simpa using h2
  | cons d rest ih =>
    intro p h1 h2
    rw [content_ok, Bool.and_eq_true] at h1
    show content_ok p (d :: (rest ++ [c])) = true
    rw [content_ok, Bool.and_eq_true]
    refine ⟨h1.1, ih (some d) h1.2 ?_⟩
    rw [← last_or_cons p d rest]
    exact h2

lemma receive_wf (st : TokenisationState) (c : Char) (h : state_wf st = true) :
    (∀ t ∈ (receive_next_char st c).1, token_wf t = true) ∧
    state_wf (receive_next_char st c).2 = true := by
  cases st with
  | Waiting =>
    simp only [receive_next_char]
    split_ifs with h1 h2 h3
    · refine ⟨?_, rfl⟩
      intro t ht
      rw [List.mem_singleton] at ht
      subst ht
      simp only [is_delim, Bool.or_eq_true, decide_eq_true_eq] at h1
      rcases h1 with ((rfl | rfl) | rfl) | rfl <;> decide
    · exact ⟨fun t ht => absurd ht (List.not_mem_nil t), rfl⟩
    · exact ⟨fun t ht => absurd ht (List.not_mem_nil t), rfl⟩
    · refine ⟨fun t ht => absurd ht (List.not_mem_nil t), ?_⟩
      show (!([c].isEmpty) && [c].all ordinary_char) = true
      have hoc : ordinary_char c = true := by
        simp only [ordinary_char, Bool.and_eq_true, Bool.not_eq_true']
        refine ⟨⟨by simpa using h2, by simpa using h1⟩, by simpa using h3⟩
      simp [hoc]
  | Token cur =>
    simp only [state_wf, Bool.and_eq_true] at h
    obtain ⟨hne, hall⟩ := h
    simp only [receive_next_char]
    split_ifs with h1 h2 h3
    · refine ⟨?_, rfl⟩
      intro t ht
      rw [List.mem_singleton] at ht
      subst ht
      show (!(cur.isEmpty) && cur.all ordinary_char) = true
      simp [hne, hall]
    · refine ⟨?_, rfl⟩
      intro t ht
      rcases List.mem_cons.mp ht with rfl | ht2
      · show (!(cur.isEmpty) && cur.all ordinary_char) = true
        simp [hne, hall]
      · rw [List.mem_singleton] at ht2
        subst ht2
        simp only [is_delim, Bool.or_eq_true, decide_eq_true_eq] at h2
        rcases h2 with ((rfl | rfl) | rfl) | rfl <;> decide
    · refine ⟨?_, rfl⟩
      intro t ht
      rw [List.mem_singleton] at ht
      subst ht
      show (!(cur.isEmpty) && cur.all ordinary_char) = true
      simp [hne, hall]
    · refine ⟨fun t ht => absurd ht (List.not_mem_nil t), ?_⟩
      show (!((cur ++ [c]).isEmpty) && (cur ++ [c]).all ordinary_char) = true
      have hoc : ordinary_char c = true := by
        simp only [ordinary_char, Bool.and_eq_true, Bool.not_eq_true']
        refine ⟨⟨by simpa using h1, by simpa using h2⟩, by simpa using h3⟩
      simp [List.all_append, hall, hoc]
  | StringLiteral cur =>
    simp only [receive_next_char]
    split_ifs with h1
    · refine ⟨?_, rfl⟩
      intro t ht
      rw [List.mem_singleton] at ht
      subst ht
      exact h
    · refine ⟨fun t ht => absurd ht (List.not_mem_nil t), ?_⟩
      show content_ok none (cur ++ [c]) = true
      apply content_ok_append cur c none h
      rw [last_or_none]
      by_cases hc : c = '"'
      · subst hc
        simp only [ends_with_backslash] at h1
        simp at h1
        simp [h1]
      · simp [hc]

lemma flush_wf (st : TokenisationState) (h : state_wf st = true) :
    ∀ t ∈ flush_pending st, token_wf t = true := by
  cases st with
  | Waiting => intro t ht; cases ht
  | Token cur =>
    intro t ht
    rw [flush_pending, List.mem_singleton] at ht
    subst ht
    exact h
  | StringLiteral cur =>
    intro t ht
    rw [flush_pending, List.mem_singleton] at ht
    subst ht
    exact h

lemma tokenise_chars_wf (code : Str) : ∀ st, state_wf st = true →
    (∀ t ∈ (tokenise_chars st code).1, token_wf t = true) ∧
    state_wf (tokenise_chars st code).2 = true := by
  induction code with
  | nil => intro st h; exact ⟨fun t ht => absurd ht (List.not_mem_nil t), h⟩
  | cons c rest ih =>
    intro st h
    rw [tokenise_chars_cons]
    obtain ⟨hr1, hr2⟩ := receive_wf st c h
    obtain ⟨hi1, hi2⟩ := ih _ hr2
    refine ⟨?_, hi2⟩
    intro t ht
    rcases List.mem_append.mp ht with ht2 | ht2
    · exact hr1 t ht2
    · exact hi1 t ht2

lemma tokenise_line_wf (code : Str) : ∀ t ∈ tokenise_line code, token_wf t = true := by
  intro t ht
  simp only [tokenise_line] at ht
  obtain ⟨h1, h2⟩ := tokenise_chars_wf code .Waiting rfl
  rcases List.mem_append.mp ht with ht2 | ht2
  · exact h1 t ht2
  · exact flush_wf _ h2 t ht2

/-! Re-tokenising the rendering of wellformed tokens is the identity. -/

lemma render_retokenise (ts : List CodeToken) (hwf : ∀ t ∈ ts, token_wf t = true)
    (hlit : ∀ t ∈ ts, literal_tail_ok t = true) :
    tokenise_line (render ts) = ts := by
  cases ts with
  | nil => rfl
  | cons t0 rest =>
    simp only [tokenise_line, render]
    rw [tokenise_chars_append,
      scan_token_render t0 (hwf t0 (by simp)) (hlit t0 (by simp)),
      scan_render_rest rest t0 (fun x hx => hwf x (by simp [hx]))
        (fun x hx => hlit x (by simp [hx]))]
    rw [List.append_assoc, emits_flush rest t0, ← List.append_assoc, done_flush]
    rfl

end Line

/-- C3, amended: for every code-part string whose token sequence contains
no literal token ending in a backslash (such a token only arises from an
unterminated literal), re-tokenising the output of `format_code` yields
exactly the same token sequence as tokenising the original input. -/
theorem token_round_trip_amended :
    ∀ s : Str, (∀ t ∈ Line.tokenise_line s, Line.literal_tail_ok t = true) →
      Line.tokenise_line (Line.format_code s) = Line.tokenise_line s := by
  intro s h
  unfold Line.format_code
  exact Line.render_retokenise _ (Line.tokenise_line_wf s) h

/-- Witness for C3 at a concrete input with items, commas and a literal. -/
theorem token_round_trip_amended_witness :
    Line.tokenise_line (Line.format_code "li $v0 ,1 \"a b\"".toList) =
      Line.tokenise_line "li $v0 ,1 \"a b\"".toList :=
  token_round_trip_amended "li $v0 ,1 \"a b\"".toList (by decide)

end MacMips
